import Mathlib

/-!
# A verification development for the `statemachine` engine

The Go package `statemachine` (file `statemachine.go`) is embedded shallowly:

* a Go `string` is a `String`, a Go slice is a `List`, a Go `error` is an
  `Option String` holding the message (`none` is `nil`);
* a method with a pointer receiver `c *Context` becomes a function that takes
  the engine and returns the engine after the call, next to what it returns;
* a Go function value (`before`, `after`, `validate`, `beforeAll`, `afterAll`) is
  a closure; it is stored as a label, and what the closure does is given by an
  environment `Callbacks`: the calls it makes on the engine while it runs
  (`RegisterEvent`, `RegisterEvents`, `SetCurrentState`, `BeforeAll`, `AfterAll`,
  chosen from the engine it finds and its arguments) and, for a validator, the
  `error` it returns. `Fire` runs those calls at the place of the callback call and
  goes on with the engine they leave, reading `currentState` and `afterAll` again
  where the Go code reads them again. A callback that calls `Fire` itself is not
  covered;
* every callback call of `Fire` is recorded in a trace, together with the value
  `CurrentState()` has when the call starts.
-/

namespace StateMachine

/-- Label standing for a Go function value that is not `nil`. -/
abbrev HookId := Nat

/-- The struct `Event` (statemachine.go, lines 20-27). -/
structure Event where
  name : String
  to_ : String
  from_ : List String
  before : Option HookId
  after : Option HookId
  validate : Option HookId

/-- The struct `Context` (statemachine.go, lines 12-19). -/
structure Context where
  states : List String
  initialState : String
  currentState : String
  events : List Event
  beforeAll : Option HookId
  afterAll : Option HookId

/-- A callback call made by `Fire`, with its arguments. -/
inductive Call where
  | beforeAll (hook : HookId) (event : String) (src : String) (dst : String)
  | before (hook : HookId)
  | validate (hook : HookId) (src : String) (dst : String)
  | after (hook : HookId)
  | afterAll (hook : HookId) (event : String) (src : String) (dst : String)
  deriving DecidableEq, Repr

/-- One entry of a trace: the call and the engine's current state when it is made. -/
structure Invocation where
  call : Call
  observed : String
  deriving DecidableEq, Repr

/-- The text `fmt.Sprintf("%v", xs)` gives for a `[]string`. -/
def fmtStates (xs : List String) : String :=
  "[" ++ " ".intercalate xs ++ "]"

/-- The function `New` (statemachine.go, lines 41-51). -/
def New (states : List String) (initialState : String) : Except String Context :=
  if states.contains initialState == false then
    Except.error "initial state must be one of the states"
  else
    Except.ok
      { states := states
        initialState := initialState
        currentState := initialState
        events := []
        beforeAll := none
        afterAll := none }

/-- The method `CurrentState` (statemachine.go, lines 53-55). -/
def CurrentState (c : Context) : String :=
  c.currentState

/-- The method `RegisterEvent` (statemachine.go, lines 61-85): the engine after the call
and the returned error. -/
def RegisterEvent (c : Context) (event : Event) : Context × Option String :=
  if c.states.contains event.to_ == false then
    (c, some ("to state must be one of: " ++ fmtStates c.states))
  else if event.from_.any (fun s => c.states.contains s == false) then
    (c, some ("from states must be one of: " ++ fmtStates c.states))
  else if event.from_.contains event.to_ then
    (c, some "from and to states cannot be the same")
  else if c.events.any (fun e => e.name == event.name) then
    (c, some "event name must be unique")
  else
    ({ c with events := c.events ++ [event] }, none)

/-- The loop of `RegisterEvents` (statemachine.go, lines 90-92): every round assigns
the result of `RegisterEvent` to the variable `err`. -/
def registerLoop (c : Context) (err : Option String) : List Event → Context × Option String
  | [] => (c, err)
  | e :: rest => registerLoop (RegisterEvent c e).1 (RegisterEvent c e).2 rest

/-- The method `RegisterEvents` (statemachine.go, lines 87-101). -/
def RegisterEvents (c : Context) (events : List Event) : Context × Option String :=
  match registerLoop c none events with
  | (c1, some err) => ({ c1 with events := [] }, some err)
  | (c1, none) => (c1, none)

/-- The method `BeforeAll` (statemachine.go, lines 103-105). -/
def BeforeAll (c : Context) (before : Option HookId) : Context :=
  { c with beforeAll := before }

/-- The method `AfterAll` (statemachine.go, lines 107-109). -/
def AfterAll (c : Context) (after : Option HookId) : Context :=
  { c with afterAll := after }

/-- The method `SetCurrentState` (statemachine.go, lines 170-178). -/
def SetCurrentState (c : Context) (state : String) : Context × Option String :=
  if !c.states.contains state then
    (c, some ("state must be one of: " ++ fmtStates c.states))
  else
    ({ c with currentState := state }, none)

/-- A call a callback makes on the engine while it runs. -/
inductive HookOp where
  | registerEvent (event : Event)
  | registerEvents (events : List Event)
  | setCurrentState (state : String)
  | beforeAll (before : Option HookId)
  | afterAll (after : Option HookId)

/-- The engine after one call made by a callback, whatever the call returns. -/
def hookStep (c : Context) : HookOp → Context
  | HookOp.registerEvent event => (RegisterEvent c event).1
  | HookOp.registerEvents events => (RegisterEvents c events).1
  | HookOp.setCurrentState state => (SetCurrentState c state).1
  | HookOp.beforeAll before => BeforeAll c before
  | HookOp.afterAll after => AfterAll c after

/-- The engine after the calls made by a callback. -/
def runHook (c : Context) (ops : List HookOp) : Context :=
  ops.foldl hookStep c

/-- The closures behind the labels: `calls call c` are the calls the callback of `call`
makes on the engine when it is called on the engine `c`; `verdict v src dst c` is the error
the validator `v` returns for `(src, dst)` when it is called on the engine `c`. -/
structure Callbacks where
  calls : Call → Context → List HookOp
  verdict : HookId → String → String → Context → Option String

/-- The engine and the trace while `Fire` runs. -/
structure FireState where
  ctx : Context
  trace : List Invocation

/-- What a call of `Fire` leaves behind: the engine, the returned error and the
callbacks called, in call order. -/
structure FireResult where
  ctx : Context
  err : Option String
  trace : List Invocation

/-- The lookup loop of `Fire` (statemachine.go, lines 124-131): the first event of the
collection that carries the name. -/
def lookupEvent (events : List Event) (event : String) : Option Event :=
  events.find? (fun e => e.name == event)

/-- One callback call: the call is recorded with the current state at that moment, and the
engine goes on as the calls of the callback leave it. -/
def invoke (env : Callbacks) (st : FireState) (call : Call) : FireState :=
  { ctx := runHook st.ctx (env.calls call st.ctx)
    trace := st.trace ++ [⟨call, st.ctx.currentState⟩] }

/-- Lines 141-143 of `Fire`: the call of `beforeAll` when it is set. -/
def callBeforeAll (env : Callbacks) (st : FireState) (currentEvent : Event) : FireState :=
  match st.ctx.beforeAll with
  | some h =>
    invoke env st (Call.beforeAll h currentEvent.name st.ctx.currentState currentEvent.to_)
  | none => st

/-- Lines 145-147 of `Fire`: the call of the event's `before` when it is set. -/
def callBefore (env : Callbacks) (st : FireState) (currentEvent : Event) : FireState :=
  match currentEvent.before with
  | some h => invoke env st (Call.before h)
  | none => st

/-- Lines 159-161 of `Fire`: the call of the event's `after` when it is set. -/
def callAfter (env : Callbacks) (st : FireState) (currentEvent : Event) : FireState :=
  match currentEvent.after with
  | some h => invoke env st (Call.after h)
  | none => st

/-- Lines 163-165 of `Fire`: the call of `afterAll` when it is set; `afterAll` and the
current state are read from the engine as `after` has left it. -/
def callAfterAll (env : Callbacks) (st : FireState) (currentEvent : Event) : FireState :=
  match st.ctx.afterAll with
  | some h =>
    invoke env st (Call.afterAll h currentEvent.name st.ctx.currentState currentEvent.to_)
  | none => st

/-- Lines 157-167 of `Fire`: the assignment of the current state and what follows it. -/
def fireCommit (env : Callbacks) (currentEvent : Event) (st : FireState) : FireResult :=
  let st1 : FireState := { st with ctx := { st.ctx with currentState := currentEvent.to_ } }
  let st2 := callAfterAll env (callAfter env st1 currentEvent) currentEvent
  { ctx := st2.ctx, err := none, trace := st2.trace }

/-- The method `Fire` (statemachine.go, lines 123-168). The event found is a copy, so its
fields are those at the time of the lookup; the engine is read again after every callback. -/
def Fire (env : Callbacks) (c : Context) (event : String) : FireResult :=
  match lookupEvent c.events event with
  | none => { ctx := c, err := some (event ++ " event is not registered"), trace := [] }
  | some currentEvent =>
    if currentEvent.from_.contains c.currentState == false then
      { ctx := c
        err := some ("cannot fire the " ++ currentEvent.name ++ " event from the "
          ++ c.currentState ++ " state")
        trace := [] }
    else
      let st := callBefore env (callBeforeAll env ⟨c, []⟩ currentEvent) currentEvent
      match currentEvent.validate with
      | some v =>
        let err := env.verdict v st.ctx.currentState currentEvent.to_ st.ctx
        let st1 := invoke env st (Call.validate v st.ctx.currentState currentEvent.to_)
        match err with
        | some err => { ctx := st1.ctx, err := some err, trace := st1.trace }
        | none => fireCommit env currentEvent st1
      | none => fireCommit env currentEvent st

/-- A call of a method of the interface `StateMachine` (statemachine.go, lines 28-38) that
can change the engine, with its arguments. -/
inductive Op where
  | registerEvent (event : Event)
  | registerEvents (events : List Event)
  | fire (event : String)
  | setCurrentState (state : String)
  | beforeAll (before : Option HookId)
  | afterAll (after : Option HookId)

/-- The engine after one call, whatever the call returns. -/
def step (env : Callbacks) (c : Context) : Op → Context
  | Op.registerEvent event => (RegisterEvent c event).1
  | Op.registerEvents events => (RegisterEvents c events).1
  | Op.fire event => (Fire env c event).ctx
  | Op.setCurrentState state => (SetCurrentState c state).1
  | Op.beforeAll before => BeforeAll c before
  | Op.afterAll after => AfterAll c after

/-- The engine after a finite sequence of calls. -/
def run (env : Callbacks) (c : Context) (ops : List Op) : Context :=
  ops.foldl (step env) c

/-- The callbacks make no call on the engine. -/
def Inert (env : Callbacks) : Prop :=
  ∀ call c, env.calls call c = []

/-- The properties every engine built by `New` keeps under all calls. -/
structure WellFormed (c : Context) : Prop where
  current_mem : c.currentState ∈ c.states
  to_mem : ∀ e ∈ c.events, e.to_ ∈ c.states
  from_mem : ∀ e ∈ c.events, ∀ s ∈ e.from_, s ∈ c.states
  to_not_from : ∀ e ∈ c.events, e.to_ ∉ e.from_
  names_nodup : (c.events.map Event.name).Nodup

/-- The engine is well formed and its states are `S`. -/
def WellFormedOver (S : List String) (c : Context) : Prop :=
  c.states = S ∧ WellFormed c

/-! ## The invariant -/

theorem contains_false_iff (xs : List String) (x : String) :
    (xs.contains x == false) = true ↔ x ∉ xs := by
  cases h : xs.contains x <;> simp_all

theorem registerEvent_cases (c : Context) (event : Event) :
    (RegisterEvent c event = ({ c with events := c.events ++ [event] }, none)
      ∧ event.to_ ∈ c.states ∧ (∀ s ∈ event.from_, s ∈ c.states)
      ∧ event.to_ ∉ event.from_ ∧ event.name ∉ c.events.map Event.name)
    ∨ (∃ err, RegisterEvent c event = (c, some err)
      ∧ (event.to_ ∉ c.states ∨ (∃ s ∈ event.from_, s ∉ c.states)
        ∨ event.to_ ∈ event.from_ ∨ event.name ∈ c.events.map Event.name)) := by
  unfold RegisterEvent
  by_cases h1 : event.to_ ∈ c.states
  · by_cases h2 : ∀ s ∈ event.from_, s ∈ c.states
    · by_cases h3 : event.to_ ∈ event.from_
      · right
        refine ⟨"from and to states cannot be the same", ?_, Or.inr (Or.inr (Or.inl h3))⟩
        have h2b : ¬ ∃ x, x ∈ event.from_ ∧ x ∉ c.states := by
          rintro ⟨x, hx, hn⟩
          exact hn (h2 x hx)
        simp [h1, h2b, h3]
      · by_cases h4 : event.name ∈ c.events.map Event.name
        · right
          refine ⟨"event name must be unique", ?_, Or.inr (Or.inr (Or.inr h4))⟩
          have h2b : ¬ ∃ x, x ∈ event.from_ ∧ x ∉ c.states := by
            rintro ⟨x, hx, hn⟩
            exact hn (h2 x hx)
          have h4b : ∃ x, x ∈ c.events ∧ x.name = event.name := by
            simpa using h4
          simp [h1, h2b, h3, h4b]
        · left
          refine ⟨?_, h1, h2, h3, h4⟩
          have h2b : ¬ ∃ x, x ∈ event.from_ ∧ x ∉ c.states := by
            rintro ⟨x, hx, hn⟩
            exact hn (h2 x hx)
          have h4b : ¬ ∃ x, x ∈ c.events ∧ x.name = event.name := by
            simpa using h4
          simp [h1, h2b, h3, h4b]
    · right
      refine ⟨"from states must be one of: " ++ fmtStates c.states, ?_, Or.inr (Or.inl ?_)⟩
      · have h2b : ∃ x, x ∈ event.from_ ∧ x ∉ c.states := by
          simpa using h2
        simp [h1, h2b]
      · simpa using h2
  · right
    exact ⟨"to state must be one of: " ++ fmtStates c.states, by simp [h1], Or.inl h1⟩

theorem registerEvent_states (c : Context) (event : Event) :
    (RegisterEvent c event).1.states = c.states
      ∧ (RegisterEvent c event).1.currentState = c.currentState := by
  rcases registerEvent_cases c event with ⟨h, _⟩ | ⟨err, h, _⟩ <;> simp [h]

theorem registerEvent_wellFormed (c : Context) (event : Event) (hc : WellFormed c) :
    WellFormed (RegisterEvent c event).1 := by
  rcases registerEvent_cases c event with ⟨h, h1, h2, h3, h4⟩ | ⟨err, h, _⟩
  · rw [h]
    refine ⟨hc.current_mem, ?_, ?_, ?_, ?_⟩
    · intro e he
      rcases List.mem_append.mp he with he | he
      · exact hc.to_mem e he
      · rw [List.mem_singleton.mp he]
        exact h1
    · intro e he
      rcases List.mem_append.mp he with he | he
      · exact hc.from_mem e he
      · rw [List.mem_singleton.mp he]
        exact h2
    · intro e he
      rcases List.mem_append.mp he with he | he
      · exact hc.to_not_from e he
      · rw [List.mem_singleton.mp he]
        exact h3
    · show ((c.events ++ [event]).map Event.name).Nodup
      rw [List.map_append, List.nodup_append]
      refine ⟨hc.names_nodup, by simp, ?_⟩
      intro a ha hb
      simp only [List.map_cons, List.map_nil, List.mem_singleton] at hb
      exact h4 (hb ▸ ha)
  · rw [h]
    exact hc

theorem registerLoop_states (events : List Event) (c : Context) (err : Option String) :
    (registerLoop c err events).1.states = c.states
      ∧ (registerLoop c err events).1.currentState = c.currentState := by
  induction events generalizing c err with
  | nil => simp [registerLoop]
  | cons e rest ih =>
    rw [registerLoop]
    have h := ih (RegisterEvent c e).1 (RegisterEvent c e).2
    have h0 := registerEvent_states c e
    exact ⟨h.1.trans h0.1, h.2.trans h0.2⟩

theorem registerLoop_wellFormed (events : List Event) (c : Context) (err : Option String)
    (hc : WellFormed c) : WellFormed (registerLoop c err events).1 := by
  induction events generalizing c err with
  | nil => simpa [registerLoop] using hc
  | cons e rest ih =>
    rw [registerLoop]
    exact ih _ _ (registerEvent_wellFormed c e hc)

theorem registerEvents_cases (c : Context) (events : List Event) :
    (∃ err, (registerLoop c none events).2 = some err
      ∧ RegisterEvents c events = ({ (registerLoop c none events).1 with events := [] }, some err))
    ∨ ((registerLoop c none events).2 = none
      ∧ RegisterEvents c events = ((registerLoop c none events).1, none)) := by
  unfold RegisterEvents
  rcases h : registerLoop c none events with ⟨c1, _ | err⟩
  · right
    simp
  · left
    exact ⟨err, by simp⟩

theorem registerEvents_states (c : Context) (events : List Event) :
    (RegisterEvents c events).1.states = c.states
      ∧ (RegisterEvents c events).1.currentState = c.currentState := by
  have h0 := registerLoop_states events c none
  rcases registerEvents_cases c events with ⟨err, _, h⟩ | ⟨_, h⟩ <;> rw [h] <;> exact h0

theorem registerEvents_wellFormed (c : Context) (events : List Event) (hc : WellFormed c) :
    WellFormed (RegisterEvents c events).1 := by
  have h0 := registerLoop_wellFormed events c none hc
  rcases registerEvents_cases c events with ⟨err, _, h⟩ | ⟨_, h⟩
  · rw [h]
    exact ⟨h0.current_mem, by simp, by simp, by simp, by simp⟩
  · rw [h]
    exact h0

theorem lookupEvent_some {events : List Event} {name : String} {e : Event}
    (h : lookupEvent events name = some e) : e ∈ events ∧ e.name = name := by
  unfold lookupEvent at h
  exact ⟨List.mem_of_find?_eq_some h, by simpa using List.find?_some h⟩

theorem lookupEvent_none {events : List Event} {name : String}
    (h : lookupEvent events name = none) : name ∉ events.map Event.name := by
  unfold lookupEvent at h
  rw [List.find?_eq_none] at h
  intro hm
  rcases List.mem_map.mp hm with ⟨e, he, hn⟩
  exact h e he (by simpa using hn)

theorem lookupEvent_of_nodup {events : List Event} (hn : (events.map Event.name).Nodup)
    {e : Event} (he : e ∈ events) : lookupEvent events e.name = some e := by
  induction events with
  | nil => cases he
  | cons x rest ih =>
    rw [List.map_cons, List.nodup_cons] at hn
    unfold lookupEvent
    rcases List.mem_cons.mp he with rfl | hr
    · simp [List.find?_cons]
    · have hne : x.name ≠ e.name := by
        intro hx
        exact hn.1 (hx ▸ List.mem_map_of_mem Event.name hr)
      rw [List.find?_cons]
      have : (x.name == e.name) = false := by simpa using hne
      rw [this]
      exact ih hn.2 hr

theorem setCurrentState_cases (c : Context) (state : String) :
    (state ∈ c.states ∧ SetCurrentState c state = ({ c with currentState := state }, none))
    ∨ (state ∉ c.states
      ∧ SetCurrentState c state = (c, some ("state must be one of: " ++ fmtStates c.states))) := by
  unfold SetCurrentState
  by_cases h : state ∈ c.states
  · exact Or.inl ⟨h, by simp [h]⟩
  · exact Or.inr ⟨h, by simp [h]⟩

theorem setCurrentState_wellFormed (c : Context) (state : String) (hc : WellFormed c) :
    WellFormed (SetCurrentState c state).1 := by
  rcases setCurrentState_cases c state with ⟨hs, h⟩ | ⟨_, h⟩
  · rw [h]
    exact ⟨hs, hc.to_mem, hc.from_mem, hc.to_not_from, hc.names_nodup⟩
  · rw [h]
    exact hc

theorem hookStep_over {S : List String} {c : Context} (op : HookOp)
    (hc : WellFormedOver S c) : WellFormedOver S (hookStep c op) := by
  cases op with
  | registerEvent event =>
    exact ⟨(registerEvent_states c event).1.trans hc.1, registerEvent_wellFormed c event hc.2⟩
  | registerEvents events =>
    exact ⟨(registerEvents_states c events).1.trans hc.1,
      registerEvents_wellFormed c events hc.2⟩
  | setCurrentState state =>
    refine ⟨?_, setCurrentState_wellFormed c state hc.2⟩
    rcases setCurrentState_cases c state with ⟨_, h⟩ | ⟨_, h⟩ <;> simp [hookStep, h, hc.1]
  | beforeAll before =>
    exact ⟨hc.1, hc.2.current_mem, hc.2.to_mem, hc.2.from_mem, hc.2.to_not_from,
      hc.2.names_nodup⟩
  | afterAll after =>
    exact ⟨hc.1, hc.2.current_mem, hc.2.to_mem, hc.2.from_mem, hc.2.to_not_from,
      hc.2.names_nodup⟩

theorem runHook_over {S : List String} (ops : List HookOp) {c : Context}
    (hc : WellFormedOver S c) : WellFormedOver S (runHook c ops) := by
  induction ops generalizing c with
  | nil => exact hc
  | cons op rest ih => exact ih (hookStep_over op hc)

theorem invoke_over {S : List String} (env : Callbacks) {st : FireState} (call : Call)
    (hc : WellFormedOver S st.ctx) : WellFormedOver S (invoke env st call).ctx :=
  runHook_over _ hc

theorem callBeforeAll_over {S : List String} (env : Callbacks) {st : FireState} (e : Event)
    (hc : WellFormedOver S st.ctx) : WellFormedOver S (callBeforeAll env st e).ctx := by
  unfold callBeforeAll
  split
  · exact invoke_over env _ hc
  · exact hc

theorem callBefore_over {S : List String} (env : Callbacks) {st : FireState} (e : Event)
    (hc : WellFormedOver S st.ctx) : WellFormedOver S (callBefore env st e).ctx := by
  unfold callBefore
  split
  · exact invoke_over env _ hc
  · exact hc

theorem callAfter_over {S : List String} (env : Callbacks) {st : FireState} (e : Event)
    (hc : WellFormedOver S st.ctx) : WellFormedOver S (callAfter env st e).ctx := by
  unfold callAfter
  split
  · exact invoke_over env _ hc
  · exact hc

theorem callAfterAll_over {S : List String} (env : Callbacks) {st : FireState} (e : Event)
    (hc : WellFormedOver S st.ctx) : WellFormedOver S (callAfterAll env st e).ctx := by
  unfold callAfterAll
  split
  · exact invoke_over env _ hc
  · exact hc

theorem fireCommit_over {S : List String} (env : Callbacks) (e : Event) {st : FireState}
    (hc : WellFormedOver S st.ctx) (hto : e.to_ ∈ S) :
    WellFormedOver S (fireCommit env e st).ctx := by
  unfold fireCommit
  apply callAfterAll_over
  apply callAfter_over
  exact ⟨hc.1, hc.1 ▸ hto, hc.2.to_mem, hc.2.from_mem, hc.2.to_not_from, hc.2.names_nodup⟩

theorem fire_over {S : List String} (env : Callbacks) {c : Context} (name : String)
    (hc : WellFormedOver S c) : WellFormedOver S (Fire env c name).ctx := by
  unfold Fire
  split
  · exact hc
  · rename_i e he
    have hto : e.to_ ∈ S := hc.1 ▸ hc.2.to_mem e (lookupEvent_some he).1
    have hst : WellFormedOver S
        (callBefore env (callBeforeAll env ⟨c, []⟩ e) e).ctx :=
      callBefore_over env e (callBeforeAll_over env e hc)
    split
    · exact hc
    · split
      · dsimp only
        split
        · exact invoke_over env _ hst
        · exact fireCommit_over env e (invoke_over env _ hst) hto
      · exact fireCommit_over env e hst hto

theorem step_over {S : List String} (env : Callbacks) {c : Context} (op : Op)
    (hc : WellFormedOver S c) : WellFormedOver S (step env c op) := by
  cases op with
  | registerEvent event => exact hookStep_over (HookOp.registerEvent event) hc
  | registerEvents events => exact hookStep_over (HookOp.registerEvents events) hc
  | fire event => exact fire_over env event hc
  | setCurrentState state => exact hookStep_over (HookOp.setCurrentState state) hc
  | beforeAll before => exact hookStep_over (HookOp.beforeAll before) hc
  | afterAll after => exact hookStep_over (HookOp.afterAll after) hc

theorem run_over {S : List String} (env : Callbacks) (ops : List Op) {c : Context}
    (hc : WellFormedOver S c) : WellFormedOver S (run env c ops) := by
  induction ops generalizing c with
  | nil => exact hc
  | cons op rest ih => exact ih (step_over env op hc)

theorem new_cases (states : List String) (initialState : String) :
    (initialState ∈ states ∧ New states initialState = Except.ok
      { states := states, initialState := initialState, currentState := initialState,
        events := [], beforeAll := none, afterAll := none })
    ∨ (initialState ∉ states
      ∧ New states initialState = Except.error "initial state must be one of the states") := by
  unfold New
  by_cases h : initialState ∈ states
  · exact Or.inl ⟨h, by simp [h]⟩
  · exact Or.inr ⟨h, by simp [h]⟩

theorem new_over {states : List String} {initialState : String} {c : Context}
    (h : New states initialState = Except.ok c) : WellFormedOver states c := by
  rcases new_cases states initialState with ⟨hm, h1⟩ | ⟨_, h1⟩
  · rw [h1] at h
    cases h
    exact ⟨rfl, hm, by simp, by simp, by simp, by simp⟩
  · rw [h1] at h
    cases h

theorem lookupEvent_of_run {states : List String} {initialState : String} {c0 : Context}
    (hnew : New states initialState = Except.ok c0) (env : Callbacks) (ops : List Op)
    {e : Event} (he : e ∈ (run env c0 ops).events) :
    lookupEvent (run env c0 ops).events e.name = some e :=
  lookupEvent_of_nodup (run_over env ops (new_over hnew)).2.names_nodup he

theorem fire_of_not_from (env : Callbacks) (c : Context) (e : Event)
    (hl : lookupEvent c.events e.name = some e) (hs : c.currentState ∉ e.from_) :
    Fire env c e.name =
      { ctx := c
        err := some ("cannot fire the " ++ e.name ++ " event from the " ++ c.currentState
          ++ " state")
        trace := [] } := by
  unfold Fire
  rw [hl]
  simp [hs]

/-- Two texts that differ within their first `n` characters stay different whatever is
appended to them. -/
theorem append_ne_of_take_ne (a b x y : String) (n : Nat) (ha : n ≤ a.data.length)
    (hb : n ≤ b.data.length) (h : a.data.take n ≠ b.data.take n) : a ++ x ≠ b ++ y := by
  intro he
  have hd := congrArg String.data he
  rw [String.data_append, String.data_append] at hd
  have h2 := congrArg (List.take n) hd
  rw [List.take_append_of_le_length ha, List.take_append_of_le_length hb] at h2
  exact h h2

/-! ## `Fire` when the callbacks make no call on the engine -/

theorem invoke_inert {env : Callbacks} (henv : Inert env) (st : FireState) (call : Call) :
    invoke env st call
      = { ctx := st.ctx, trace := st.trace ++ [⟨call, st.ctx.currentState⟩] } := by
  unfold invoke
  rw [henv call st.ctx]
  rfl

/-- The state of `Fire` before the validator, for callbacks that make no call on the
engine. -/
theorem callBefore_inert {env : Callbacks} (henv : Inert env) (c : Context) (e : Event) :
    callBefore env (callBeforeAll env ⟨c, []⟩ e) e
      = { ctx := c
          trace :=
            (c.beforeAll.map fun h =>
              (⟨Call.beforeAll h e.name c.currentState e.to_, c.currentState⟩ : Invocation)).toList
            ++ (e.before.map fun h =>
              (⟨Call.before h, c.currentState⟩ : Invocation)).toList } := by
  unfold callBefore callBeforeAll
  cases c.beforeAll <;> cases e.before <;> simp [invoke_inert henv]

/-- The result of `fireCommit`, for callbacks that make no call on the engine. -/
theorem fireCommit_inert {env : Callbacks} (henv : Inert env) (e : Event) (st : FireState) :
    fireCommit env e st
      = { ctx := { st.ctx with currentState := e.to_ }
          err := none
          trace := st.trace
            ++ (e.after.map fun h => (⟨Call.after h, e.to_⟩ : Invocation)).toList
            ++ (st.ctx.afterAll.map fun h =>
              (⟨Call.afterAll h e.name e.to_ e.to_, e.to_⟩ : Invocation)).toList } := by
  unfold fireCommit callAfterAll callAfter
  cases e.after <;> cases h : st.ctx.afterAll <;> simp [invoke_inert henv, h]

theorem fire_of_reject {env : Callbacks} (henv : Inert env) (c : Context) (e : Event)
    (v : HookId) (err : String) (hl : lookupEvent c.events e.name = some e)
    (hs : c.currentState ∈ e.from_) (hv : e.validate = some v)
    (hr : env.verdict v c.currentState e.to_ c = some err) :
    Fire env c e.name =
      { ctx := c
        err := some err
        trace :=
          (c.beforeAll.map fun h =>
            (⟨Call.beforeAll h e.name c.currentState e.to_, c.currentState⟩ : Invocation)).toList
          ++ (e.before.map fun h => (⟨Call.before h, c.currentState⟩ : Invocation)).toList
          ++ [⟨Call.validate v c.currentState e.to_, c.currentState⟩] } := by
  unfold Fire
  rw [hl]
  simp [hs, hv, hr, callBefore_inert henv, invoke_inert henv]

theorem fire_of_accept {env : Callbacks} (henv : Inert env) (c : Context) (e : Event)
    (hl : lookupEvent c.events e.name = some e) (hs : c.currentState ∈ e.from_)
    (hv : ∀ v, e.validate = some v → env.verdict v c.currentState e.to_ c = none) :
    Fire env c e.name =
      { ctx := { c with currentState := e.to_ }
        err := none
        trace :=
          (c.beforeAll.map fun h =>
            (⟨Call.beforeAll h e.name c.currentState e.to_, c.currentState⟩ : Invocation)).toList
          ++ (e.before.map fun h => (⟨Call.before h, c.currentState⟩ : Invocation)).toList
          ++ (e.validate.map fun v =>
            (⟨Call.validate v c.currentState e.to_, c.currentState⟩ : Invocation)).toList
          ++ (e.after.map fun h => (⟨Call.after h, e.to_⟩ : Invocation)).toList
          ++ (c.afterAll.map fun h =>
            (⟨Call.afterAll h e.name e.to_ e.to_, e.to_⟩ : Invocation)).toList } := by
  unfold Fire
  rw [hl]
  cases hval : e.validate with
  | none => simp [hs, hval, callBefore_inert henv, fireCommit_inert henv]
  | some v =>
    simp [hs, hval, hv v hval, callBefore_inert henv, invoke_inert henv,
      fireCommit_inert henv]

/-- The first event of the collection that carries the name: it carries the name and no
event before it does. -/
def IsFirstNamed (events : List Event) (name : String) (e : Event) : Prop :=
  e.name = name ∧ ∃ pre post, events = pre ++ e :: post ∧ ∀ x ∈ pre, x.name ≠ name

theorem lookupEvent_eq_some_iff (events : List Event) (name : String) (e : Event) :
    lookupEvent events name = some e ↔ IsFirstNamed events name e := by
  unfold lookupEvent IsFirstNamed
  rw [List.find?_eq_some]
  simp

/-! ## Sample engines, events and callbacks

The engines and events of the package's tests, used to run the model. -/

/-- The event `{name: "go", from: [A], to: B}`. -/
def evGo : Event :=
  { name := "go", to_ := "B", from_ := ["A"], before := none, after := none, validate := none }

/-- The event `{name: "back", from: [B], to: A}`. -/
def evBack : Event :=
  { name := "back", to_ := "A", from_ := ["B"], before := none, after := none,
    validate := none }

/-- The engine `New([A, B], A)` returns. -/
def engineAB : Context :=
  { states := ["A", "B"], initialState := "A", currentState := "A", events := [],
    beforeAll := none, afterAll := none }

/-- Callbacks that make no call on the engine; the validator `3` returns the error
`test1 event is not allowed` and every other validator returns `nil`. -/
def envQuiet : Callbacks :=
  { calls := fun _ _ => []
    verdict := fun v _ _ _ => if v = 3 then some "test1 event is not allowed" else none }

/-- Callbacks of which two call the engine: the callback `1`, used as an `after`, is
`func() { sm.SetCurrentState("A") }`, and the callback `2`, used as a `before`, is
`func() { sm.SetCurrentState("C") }`; the validator `3` returns the error
`test1 event is not allowed`. -/
def envTouch : Callbacks :=
  { calls := fun call _ =>
      match call with
      | Call.after 1 => [HookOp.setCurrentState "A"]
      | Call.before 2 => [HookOp.setCurrentState "C"]
      | _ => []
    verdict := fun v _ _ _ => if v = 3 then some "test1 event is not allowed" else none }

/-- The event `{name: "go", from: [A], to: B, after: func() { sm.SetCurrentState("A") }}`. -/
def evGoReset : Event :=
  { name := "go", to_ := "B", from_ := ["A"], before := none, after := some 1,
    validate := none }

theorem envQuiet_inert : Inert envQuiet :=
  fun _ _ => rfl

/-! ## The transition protocol -/

/-- C1: for an engine returned by a successful `New(states, initialState)` and any finite
sequence of `RegisterEvent`, `RegisterEvents`, `Fire`, `SetCurrentState`, `BeforeAll` and
`AfterAll` calls applied to it, whatever each call returns, `CurrentState()` is an element
of `states`; this holds for callbacks that make no call on the engine and also for
callbacks that call the engine's registration and state methods. -/
theorem currentState_mem_states_of_run (env : Callbacks) (states : List String)
    (initialState : String) (c0 : Context) (ops : List Op)
    (hnew : New states initialState = Except.ok c0) :
    CurrentState (run env c0 ops) ∈ states := by
  have h := run_over env ops (new_over hnew)
  have h2 := h.2.current_mem
  rw [h.1] at h2
  exact h2

theorem currentState_mem_states_of_run_witness :
    New ["A", "B"] "A" = Except.ok engineAB
      ∧ CurrentState (run envTouch engineAB [Op.registerEvent evGoReset,
          Op.setCurrentState "C", Op.fire "go", Op.fire "go",
          Op.registerEvents [evBack, evGo]]) ∈ ["A", "B"] :=
  ⟨rfl, currentState_mem_states_of_run envTouch ["A", "B"] "A" engineAB _ rfl⟩

/-- C3: when no registered event carries the name, `Fire(name)` returns the error
`<name> event is not registered`, leaves the whole engine (current state and registered
events included) as it was, and calls no hook and no validator. -/
theorem fire_unregistered (env : Callbacks) (c : Context) (name : String)
    (h : ∀ e ∈ c.events, e.name ≠ name) :
    (Fire env c name).err = some (name ++ " event is not registered")
      ∧ (Fire env c name).ctx = c
      ∧ (Fire env c name).trace = [] := by
  have hl : lookupEvent c.events name = none := by
    unfold lookupEvent
    rw [List.find?_eq_none]
    intro e he
    simpa using h e he
  unfold Fire
  rw [hl]
  exact ⟨rfl, rfl, rfl⟩

theorem fire_unregistered_witness :
    (∀ e ∈ (step envTouch engineAB (Op.registerEvent evGo)).events, e.name ≠ "test1")
      ∧ (Fire envTouch (step envTouch engineAB (Op.registerEvent evGo)) "test1").err
          = some "test1 event is not registered"
      ∧ (Fire envTouch (step envTouch engineAB (Op.registerEvent evGo)) "test1").ctx
          = step envTouch engineAB (Op.registerEvent evGo)
      ∧ (Fire envTouch (step envTouch engineAB (Op.registerEvent evGo)) "test1").trace = [] :=
  ⟨by simp [step, RegisterEvent, engineAB, evGo],
    fire_unregistered envTouch (step envTouch engineAB (Op.registerEvent evGo)) "test1"
      (by simp [step, RegisterEvent, engineAB, evGo])⟩

/-- The event `test1` of the tests, from `B` to `A`. -/
def evTest1BA : Event :=
  { name := "test1", to_ := "A", from_ := ["B"], before := none, after := none,
    validate := none }

/-- C4: in an engine built by `New` and any sequence of calls, with current state `s`, for a
registered event `e` whose `from` does not contain `s`, `Fire(e.name)` returns the error
`cannot fire the <e.name> event from the <s> state`, leaves the engine (its current state
included) as it was, and calls no hook and no validator. -/
theorem fire_illegal_transition (env : Callbacks) (states : List String)
    (initialState : String) (c0 : Context) (ops : List Op) (e : Event)
    (hnew : New states initialState = Except.ok c0)
    (he : e ∈ (run env c0 ops).events)
    (hs : CurrentState (run env c0 ops) ∉ e.from_) :
    (Fire env (run env c0 ops) e.name).err
        = some ("cannot fire the " ++ e.name ++ " event from the "
            ++ CurrentState (run env c0 ops) ++ " state")
      ∧ (Fire env (run env c0 ops) e.name).ctx = run env c0 ops
      ∧ (Fire env (run env c0 ops) e.name).trace = [] := by
  rw [fire_of_not_from env (run env c0 ops) e (lookupEvent_of_run hnew env ops he) hs]
  exact ⟨rfl, rfl, rfl⟩

theorem fire_illegal_transition_witness :
    New ["A", "B"] "A" = Except.ok engineAB
      ∧ evTest1BA
          ∈ (run envTouch engineAB [Op.beforeAll (some 7), Op.registerEvent evTest1BA]).events
      ∧ CurrentState (run envTouch engineAB [Op.beforeAll (some 7), Op.registerEvent evTest1BA])
          ∉ evTest1BA.from_
      ∧ (Fire envTouch (run envTouch engineAB
          [Op.beforeAll (some 7), Op.registerEvent evTest1BA]) "test1").err
          = some "cannot fire the test1 event from the A state"
      ∧ (Fire envTouch (run envTouch engineAB
          [Op.beforeAll (some 7), Op.registerEvent evTest1BA]) "test1").ctx
          = run envTouch engineAB [Op.beforeAll (some 7), Op.registerEvent evTest1BA]
      ∧ (Fire envTouch (run envTouch engineAB
          [Op.beforeAll (some 7), Op.registerEvent evTest1BA]) "test1").trace
          = [] :=
  ⟨rfl, List.Mem.head _, by decide,
    fire_illegal_transition envTouch ["A", "B"] "A" engineAB
      [Op.beforeAll (some 7), Op.registerEvent evTest1BA] evTest1BA rfl (List.Mem.head _)
      (by decide)⟩

/-- The engine after `New([A, B], A)` and `RegisterEvent(evGoReset)`. -/
def engineReset : Context :=
  { states := ["A", "B"], initialState := "A", currentState := "A", events := [evGoReset],
    beforeAll := none, afterAll := none }

/-- C2 fails on the code: on `New([A, B], A)` with the event `go` from `A` to `B` registered,
whose `after` is `func() { sm.SetCurrentState("A") }`, `Fire("go")` returns no error and the
current state afterwards is `A`, not the target `B` of the event. -/
theorem fire_ok_state_not_target :
    New ["A", "B"] "A" = Except.ok engineAB
      ∧ (RegisterEvent engineAB evGoReset).1 = engineReset
      ∧ IsFirstNamed engineReset.events "go" evGoReset
      ∧ (Fire envTouch engineReset "go").err = none
      ∧ CurrentState (Fire envTouch engineReset "go").ctx = "A"
      ∧ CurrentState (Fire envTouch engineReset "go").ctx ≠ evGoReset.to_ :=
  ⟨rfl, rfl, ⟨rfl, [], [], rfl, by simp⟩, rfl, rfl, by decide⟩

/-- C2 as amended: when the callbacks make no call on the engine, with `e` the first
registered event that carries the name, `Fire(name)` returns no error exactly when `e`
exists, the current state is in `e.from` and `e.validate` is unset or returns no error for
`(current state, e.to)`; and when `Fire(name)` returns no error the current state afterwards
is `e.to`. -/
theorem fire_ok_iff (env : Callbacks) (henv : Inert env) (c : Context) (name : String) :
    ((Fire env c name).err = none ↔
        ∃ e, IsFirstNamed c.events name e ∧ CurrentState c ∈ e.from_
          ∧ (e.validate = none
            ∨ ∃ v, e.validate = some v ∧ env.verdict v (CurrentState c) e.to_ c = none))
      ∧ (∀ e, IsFirstNamed c.events name e → (Fire env c name).err = none →
          CurrentState (Fire env c name).ctx = e.to_) := by
  cases hl : lookupEvent c.events name with
  | none =>
    have hno : ∀ e, ¬ IsFirstNamed c.events name e := by
      intro e he
      rw [← lookupEvent_eq_some_iff, hl] at he
      cases he
    have herr : (Fire env c name).err ≠ none := by
      unfold Fire
      rw [hl]
      simp
    exact ⟨⟨fun h => absurd h herr, fun ⟨e, he, _⟩ => absurd he (hno e)⟩,
      fun e he => absurd he (hno e)⟩
  | some e =>
    have hname : e.name = name := (lookupEvent_some hl).2
    have huniq : ∀ x, IsFirstNamed c.events name x → x = e := by
      intro x hx
      rw [← lookupEvent_eq_some_iff, hl] at hx
      exact (Option.some.inj hx).symm
    have hfirst : IsFirstNamed c.events name e := (lookupEvent_eq_some_iff _ _ _).mp hl
    have hle : lookupEvent c.events e.name = some e := by rw [hname, hl]
    by_cases hs : c.currentState ∈ e.from_
    · by_cases hv : ∀ v, e.validate = some v → env.verdict v c.currentState e.to_ c = none
      · have hf := fire_of_accept henv c e hle hs hv
        rw [hname] at hf
        rw [hf]
        refine ⟨⟨fun _ => ⟨e, hfirst, hs, ?_⟩, fun _ => rfl⟩, ?_⟩
        · cases hval : e.validate with
          | none => exact Or.inl rfl
          | some v => exact Or.inr ⟨v, rfl, hv v hval⟩
        · intro x hx _
          rw [huniq x hx]
          rfl
      · have hv2 : ∃ v err, e.validate = some v
            ∧ env.verdict v c.currentState e.to_ c = some err := by
          by_contra hcon
          apply hv
          intro v hval
          cases hr : env.verdict v c.currentState e.to_ c with
          | none => rfl
          | some err => exact absurd ⟨v, err, hval, hr⟩ hcon
        rcases hv2 with ⟨v, err, hval, hr⟩
        have hf := fire_of_reject henv c e v err hle hs hval hr
        rw [hname] at hf
        rw [hf]
        refine ⟨⟨(fun h => by cases h), ?_⟩, (fun _ _ h => by cases h)⟩
        rintro ⟨x, hx, _, hx2⟩
        rw [huniq x hx, hval] at hx2
        rcases hx2 with h0 | ⟨w, hw, hw2⟩
        · cases h0
        · cases hw
          rw [CurrentState, hr] at hw2
          cases hw2
    · have hf := fire_of_not_from env c e hle hs
      rw [hname] at hf
      rw [hf]
      refine ⟨⟨(fun h => by cases h), ?_⟩, (fun _ _ h => by cases h)⟩
      rintro ⟨x, hx, hx1, _⟩
      rw [huniq x hx] at hx1
      exact absurd hx1 hs

theorem fire_ok_iff_witness :
    Inert envQuiet
      ∧ (Fire envQuiet engineReset "go").err = none
      ∧ CurrentState (Fire envQuiet engineReset "go").ctx = "B"
      ∧ ((Fire envQuiet engineReset "go").err = none ↔
          ∃ e, IsFirstNamed engineReset.events "go" e ∧ CurrentState engineReset ∈ e.from_
            ∧ (e.validate = none
              ∨ ∃ v, e.validate = some v
                ∧ envQuiet.verdict v (CurrentState engineReset) e.to_ engineReset = none))
      ∧ (∀ e, IsFirstNamed engineReset.events "go" e →
          (Fire envQuiet engineReset "go").err = none →
          CurrentState (Fire envQuiet engineReset "go").ctx = e.to_) :=
  ⟨envQuiet_inert, rfl, rfl, fire_ok_iff envQuiet envQuiet_inert engineReset "go"⟩

/-- The event `test1` of the tests, from `A` to `B`, with the validator `3` and both of
its hooks set. -/
def evRejecting : Event :=
  { name := "test1", to_ := "B", from_ := ["A"], before := some 5, after := some 6,
    validate := some 3 }

/-- The event `test1` of the tests, from `A` to `B`, with the validator `8` and both of
its hooks set. -/
def evHooked : Event :=
  { name := "test1", to_ := "B", from_ := ["A"], before := some 5, after := some 6,
    validate := some 8 }

/-- The engine `New([A, B], A)` returns, after `BeforeAll`, `AfterAll` and the registration
of one event. -/
def engineHooks (e : Event) : Context :=
  { states := ["A", "B"], initialState := "A", currentState := "A", events := [e],
    beforeAll := some 3, afterAll := some 4 }

/-- The engine `New([A, B, C], A)` returns. -/
def engineABC : Context :=
  { states := ["A", "B", "C"], initialState := "A", currentState := "A", events := [],
    beforeAll := none, afterAll := none }

/-- The event `test1` from `A` to `B` whose `before` is `func() { sm.SetCurrentState("C") }`
and whose validator rejects. -/
def evRejectTouch : Event :=
  { name := "test1", to_ := "B", from_ := ["A"], before := some 2, after := none,
    validate := some 3 }

/-- C5 fails on the code: on `New([A, B, C], A)` with the event `evRejectTouch` registered,
the current state `A` is in `from` and the validator returns an error for `(A, B)`;
`Fire("test1")` calls `before`, which sets the state to `C`, then calls the validator with
`(C, B)` and returns its error, and the current state afterwards is `C`, not `A`. -/
theorem fire_validate_rejects_state_moved :
    New ["A", "B", "C"] "A" = Except.ok engineABC
      ∧ evRejectTouch ∈ (run envTouch engineABC [Op.registerEvent evRejectTouch]).events
      ∧ CurrentState (run envTouch engineABC [Op.registerEvent evRejectTouch])
          ∈ evRejectTouch.from_
      ∧ envTouch.verdict 3 "A" "B" (run envTouch engineABC [Op.registerEvent evRejectTouch])
          = some "test1 event is not allowed"
      ∧ (Fire envTouch (run envTouch engineABC [Op.registerEvent evRejectTouch]) "test1").err
          = some "test1 event is not allowed"
      ∧ (Fire envTouch (run envTouch engineABC [Op.registerEvent evRejectTouch]) "test1").trace
          = [⟨Call.before 2, "A"⟩, ⟨Call.validate 3 "C" "B", "C"⟩]
      ∧ CurrentState
          (Fire envTouch (run envTouch engineABC [Op.registerEvent evRejectTouch]) "test1").ctx
          = "C"
      ∧ CurrentState
          (Fire envTouch (run envTouch engineABC [Op.registerEvent evRejectTouch]) "test1").ctx
          ≠ CurrentState (run envTouch engineABC [Op.registerEvent evRejectTouch]) :=
  ⟨rfl, List.Mem.head _, by decide, rfl, rfl, rfl, rfl, by decide⟩

/-- C5 as amended: when the callbacks make no call on the engine, in an engine built by `New`
and any sequence of calls, with current state `s`, for a registered event `e` with `s` in
`e.from` whose validator returns the error `err` for `(s, e.to)`, `Fire(e.name)` returns `err`
itself, the engine and its current state are as before, the calls made are `beforeAll`,
`e.before` (those that are set) and the validator, and neither `e.after` nor `afterAll` is
called. -/
theorem fire_validate_rejects (env : Callbacks) (henv : Inert env) (states : List String)
    (initialState : String) (c0 c : Context) (ops : List Op) (e : Event) (v : HookId)
    (err : String)
    (hnew : New states initialState = Except.ok c0) (hrun : run env c0 ops = c)
    (he : e ∈ c.events) (hs : CurrentState c ∈ e.from_)
    (hv : e.validate = some v) (hr : env.verdict v (CurrentState c) e.to_ c = some err) :
    (Fire env c e.name).err = some err
      ∧ (Fire env c e.name).ctx = c
      ∧ CurrentState (Fire env c e.name).ctx = CurrentState c
      ∧ (Fire env c e.name).trace =
          (c.beforeAll.map fun h =>
            (⟨Call.beforeAll h e.name (CurrentState c) e.to_, CurrentState c⟩ : Invocation)).toList
          ++ (e.before.map fun h => (⟨Call.before h, CurrentState c⟩ : Invocation)).toList
          ++ [⟨Call.validate v (CurrentState c) e.to_, CurrentState c⟩]
      ∧ (∀ i ∈ (Fire env c e.name).trace,
          (∀ h, i.call ≠ Call.after h) ∧ (∀ h n a b, i.call ≠ Call.afterAll h n a b)) := by
  subst hrun
  have hf := fire_of_reject henv (run env c0 ops) e v err
    (lookupEvent_of_run hnew env ops he) hs hv hr
  refine ⟨by rw [hf], by rw [hf], by rw [hf], by rw [hf]; rfl, ?_⟩
  intro i hi
  rw [hf] at hi
  simp only [List.mem_append, Option.mem_toList, Option.mem_def, Option.map_eq_some',
    List.mem_singleton] at hi
  rcases hi with (⟨h, _, rfl⟩ | ⟨h, _, rfl⟩) | rfl <;> simp

theorem fire_validate_rejects_witness :
    Inert envQuiet
      ∧ New ["A", "B"] "A" = Except.ok engineAB
      ∧ run envQuiet engineAB
          [Op.beforeAll (some 3), Op.afterAll (some 4), Op.registerEvent evRejecting]
          = engineHooks evRejecting
      ∧ (Fire envQuiet (engineHooks evRejecting) "test1").err
          = some "test1 event is not allowed"
      ∧ CurrentState (Fire envQuiet (engineHooks evRejecting) "test1").ctx = "A"
      ∧ (Fire envQuiet (engineHooks evRejecting) "test1").trace
          = [⟨Call.beforeAll 3 "test1" "A" "B", "A"⟩, ⟨Call.before 5, "A"⟩,
              ⟨Call.validate 3 "A" "B", "A"⟩] :=
  have h := fire_validate_rejects envQuiet envQuiet_inert ["A", "B"] "A" engineAB
    (engineHooks evRejecting)
    [Op.beforeAll (some 3), Op.afterAll (some 4), Op.registerEvent evRejecting] evRejecting
    3 "test1 event is not allowed" rfl rfl (List.Mem.head _) (by decide) rfl rfl
  ⟨envQuiet_inert, rfl, rfl, h.1, h.2.2.1, h.2.2.2.1⟩

/-- The engine after `New([A, B], A)`, `AfterAll(afterAll)` and
`RegisterEvent(evGoReset)`. -/
def engineResetAll : Context :=
  { states := ["A", "B"], initialState := "A", currentState := "A", events := [evGoReset],
    beforeAll := none, afterAll := some 4 }

/-- C6 fails on the code: on `New([A, B], A)` with `afterAll` set and the event `go` from
`A` to `B` registered, whose `after` is `func() { sm.SetCurrentState("A") }`, `Fire("go")`
returns no error, calls `after` with the current state `B`, then calls `afterAll` with
`(go, A, B)` and not `(go, B, B)`, and the current state afterwards is `A`, not `B`. -/
theorem fire_success_afterAll_rereads :
    New ["A", "B"] "A" = Except.ok engineAB
      ∧ run envTouch engineAB [Op.afterAll (some 4), Op.registerEvent evGoReset]
          = engineResetAll
      ∧ evGoReset ∈ engineResetAll.events
      ∧ CurrentState engineResetAll ∈ evGoReset.from_
      ∧ evGoReset.validate = none
      ∧ (Fire envTouch engineResetAll "go").err = none
      ∧ (Fire envTouch engineResetAll "go").trace
          = [⟨Call.after 1, "B"⟩, ⟨Call.afterAll 4 "go" "A" "B", "A"⟩]
      ∧ (Fire envTouch engineResetAll "go").trace
          ≠ [⟨Call.after 1, "B"⟩, ⟨Call.afterAll 4 "go" "B" "B", "B"⟩]
      ∧ CurrentState (Fire envTouch engineResetAll "go").ctx = "A"
      ∧ CurrentState (Fire envTouch engineResetAll "go").ctx ≠ evGoReset.to_ :=
  ⟨rfl, rfl, List.Mem.head _, by decide, rfl, rfl, rfl, by decide, rfl, by decide⟩

/-- C6 as amended: when the callbacks make no call on the engine, in an engine built by `New`
and any sequence of calls, with current state `s`, for a registered event `e` with `s` in
`e.from` whose validator is unset or accepts `(s, e.to)`, `Fire(e.name)` returns no error,
sets the current state to `e.to`, and makes exactly these calls in this order, leaving out
those whose callback is unset: `beforeAll(e.name, s, e.to)`, `e.before()`,
`e.validate(s, e.to)` (all three while the current state is still `s`), then `e.after()` and
`afterAll(e.name, e.to, e.to)` (both with the current state already `e.to`). -/
theorem fire_success_sequence (env : Callbacks) (henv : Inert env) (states : List String)
    (initialState : String) (c0 c : Context) (ops : List Op) (e : Event)
    (hnew : New states initialState = Except.ok c0) (hrun : run env c0 ops = c)
    (he : e ∈ c.events) (hs : CurrentState c ∈ e.from_)
    (hv : ∀ v, e.validate = some v → env.verdict v (CurrentState c) e.to_ c = none) :
    (Fire env c e.name).err = none
      ∧ (Fire env c e.name).ctx = { c with currentState := e.to_ }
      ∧ (Fire env c e.name).trace =
          (c.beforeAll.map fun h =>
            (⟨Call.beforeAll h e.name (CurrentState c) e.to_, CurrentState c⟩ : Invocation)).toList
          ++ (e.before.map fun h => (⟨Call.before h, CurrentState c⟩ : Invocation)).toList
          ++ (e.validate.map fun v =>
            (⟨Call.validate v (CurrentState c) e.to_, CurrentState c⟩ : Invocation)).toList
          ++ (e.after.map fun h => (⟨Call.after h, e.to_⟩ : Invocation)).toList
          ++ (c.afterAll.map fun h =>
            (⟨Call.afterAll h e.name e.to_ e.to_, e.to_⟩ : Invocation)).toList := by
  subst hrun
  rw [fire_of_accept henv (run env c0 ops) e (lookupEvent_of_run hnew env ops he) hs hv]
  exact ⟨rfl, rfl, rfl⟩

theorem fire_success_sequence_witness :
    Inert envQuiet
      ∧ New ["A", "B"] "A" = Except.ok engineAB
      ∧ run envQuiet engineAB
          [Op.beforeAll (some 3), Op.afterAll (some 4), Op.registerEvent evHooked]
          = engineHooks evHooked
      ∧ (Fire envQuiet (engineHooks evHooked) "test1").err = none
      ∧ CurrentState (Fire envQuiet (engineHooks evHooked) "test1").ctx = "B"
      ∧ (Fire envQuiet (engineHooks evHooked) "test1").trace
          = [⟨Call.beforeAll 3 "test1" "A" "B", "A"⟩, ⟨Call.before 5, "A"⟩,
              ⟨Call.validate 8 "A" "B", "A"⟩, ⟨Call.after 6, "B"⟩,
              ⟨Call.afterAll 4 "test1" "B" "B", "B"⟩] :=
  have h := fire_success_sequence envQuiet envQuiet_inert ["A", "B"] "A" engineAB
    (engineHooks evHooked)
    [Op.beforeAll (some 3), Op.afterAll (some 4), Op.registerEvent evHooked] evHooked
    rfl rfl (List.Mem.head _) (by decide) (fun _ hv => by cases hv; rfl)
  ⟨envQuiet_inert, rfl, rfl, h.1, congrArg CurrentState h.2.1, h.2.2⟩

/-! ## Registration -/

/-- An event whose source `C` is not a state of `engineAB`. -/
def evBadSource : Event :=
  { name := "event1", to_ := "A", from_ := ["C"], before := none, after := none,
    validate := none }

/-- An event whose target is among its sources. -/
def evSelf : Event :=
  { name := "event2", to_ := "A", from_ := ["A"], before := none, after := none,
    validate := none }

/-- C7: `RegisterEvents` on `New([A, B], A)` with the batch `[evBadSource, evGo]`: the first
event fails the single-event rule (its source `C` is no state), and yet the call returns no
error and the collection afterwards holds `evGo`; only the result of the last event of a
batch decides. -/
theorem registerEvents_keeps_after_early_failure :
    (RegisterEvent engineAB evBadSource).2 = some "from states must be one of: [A B]"
      ∧ (RegisterEvents engineAB [evBadSource, evGo]).2 = none
      ∧ (RegisterEvents engineAB [evBadSource, evGo]).1.events = [evGo] :=
  ⟨by decide, by decide, rfl⟩

/-- C8: `RegisterEvents` on `New([A, B], A)` with the batch `[evBadSource, evSelf]`: both
events fail, the first with the invalid-source error and the second with the self-transition
error, and the call returns the error of the second, the last one met. -/
theorem registerEvents_returns_last_error :
    (RegisterEvent engineAB evBadSource).2 = some "from states must be one of: [A B]"
      ∧ (RegisterEvent (RegisterEvent engineAB evBadSource).1 evSelf).2
          = some "from and to states cannot be the same"
      ∧ (RegisterEvents engineAB [evBadSource, evSelf]).2
          = some "from and to states cannot be the same" :=
  ⟨by decide, by decide, by decide⟩

/-- C9: `RegisterEvent(event)` returns an error exactly when `event.to` is not in `states`,
or an element of `event.from` is not in `states`, or `event.to` is in `event.from`, or a
registered event has the same name; and when it returns an error the engine (states, current
state, registered events, global hooks) is what it was before the call. -/
theorem registerEvent_error_iff (c : Context) (event : Event) :
    ((RegisterEvent c event).2 ≠ none ↔
        (event.to_ ∉ c.states ∨ (∃ s ∈ event.from_, s ∉ c.states)
          ∨ event.to_ ∈ event.from_ ∨ ∃ e ∈ c.events, e.name = event.name))
      ∧ ((RegisterEvent c event).2 ≠ none → (RegisterEvent c event).1 = c) := by
  have hname : (∃ e ∈ c.events, e.name = event.name) ↔ event.name ∈ c.events.map Event.name := by
    simp [List.mem_map]
  rw [hname]
  rcases registerEvent_cases c event with ⟨h, h1, h2, h3, h4⟩ | ⟨err, h, hcase⟩
  · rw [h]
    refine ⟨⟨fun hne => absurd rfl hne, ?_⟩, fun hne => absurd rfl hne⟩
    rintro (h5 | ⟨s, hs, h5⟩ | h5 | h5)
    · exact absurd h1 h5
    · exact absurd (h2 s hs) h5
    · exact absurd h5 h3
    · exact absurd h5 h4
  · rw [h]
    exact ⟨⟨fun _ => hcase, fun _ => by simp⟩, fun _ => rfl⟩

/-- C10: `RegisterEvent` reports the first failing check in the order target not in
`states`, a source not in `states`, target among the sources, name already used: the error
returned is that of the lowest-numbered rule the event violates, whatever higher-numbered
rules it violates as well; and the four errors are pairwise different. -/
theorem registerEvent_first_failure (c : Context) (event : Event) :
    (event.to_ ∉ c.states →
        (RegisterEvent c event).2 = some ("to state must be one of: " ++ fmtStates c.states))
      ∧ (event.to_ ∈ c.states → (∃ s ∈ event.from_, s ∉ c.states) →
        (RegisterEvent c event).2 = some ("from states must be one of: " ++ fmtStates c.states))
      ∧ (event.to_ ∈ c.states → (∀ s ∈ event.from_, s ∈ c.states) → event.to_ ∈ event.from_ →
        (RegisterEvent c event).2 = some "from and to states cannot be the same")
      ∧ (event.to_ ∈ c.states → (∀ s ∈ event.from_, s ∈ c.states) → event.to_ ∉ event.from_ →
          (∃ e ∈ c.events, e.name = event.name) →
        (RegisterEvent c event).2 = some "event name must be unique")
      ∧ [ "to state must be one of: " ++ fmtStates c.states,
          "from states must be one of: " ++ fmtStates c.states,
          "from and to states cannot be the same",
          "event name must be unique" ].Nodup := by
  refine ⟨?_, ?_, ?_, ?_, ?_⟩
  · intro h1
    simp [RegisterEvent, h1]
  · intro h1 h2
    simp [RegisterEvent, h1, h2]
  · intro h1 h2 h3
    have h2b : ¬ ∃ x, x ∈ event.from_ ∧ x ∉ c.states := by
      rintro ⟨x, hx, hn⟩
      exact hn (h2 x hx)
    simp [RegisterEvent, h1, h2b, h3]
  · intro h1 h2 h3 h4
    have h2b : ¬ ∃ x, x ∈ event.from_ ∧ x ∉ c.states := by
      rintro ⟨x, hx, hn⟩
      exact hn (h2 x hx)
    simp [RegisterEvent, h1, h2b, h3, h4]
  · have h12 : "to state must be one of: " ++ fmtStates c.states
        ≠ "from states must be one of: " ++ fmtStates c.states :=
      append_ne_of_take_ne _ _ _ _ 1 (by decide) (by decide) (by decide)
    have h13 : "to state must be one of: " ++ fmtStates c.states
        ≠ "from and to states cannot be the same" ++ "" :=
      append_ne_of_take_ne _ _ _ _ 1 (by decide) (by decide) (by decide)
    have h14 : "to state must be one of: " ++ fmtStates c.states
        ≠ "event name must be unique" ++ "" :=
      append_ne_of_take_ne _ _ _ _ 1 (by decide) (by decide) (by decide)
    have h23 : "from states must be one of: " ++ fmtStates c.states
        ≠ "from and to states cannot be the same" ++ "" :=
      append_ne_of_take_ne _ _ _ _ 6 (by decide) (by decide) (by decide)
    have h24 : "from states must be one of: " ++ fmtStates c.states
        ≠ "event name must be unique" ++ "" :=
      append_ne_of_take_ne _ _ _ _ 1 (by decide) (by decide) (by decide)
    have h34 : "from and to states cannot be the same" ≠ "event name must be unique" := by
      decide
    rw [String.append_empty] at h13 h14 h23 h24
    simp only [List.nodup_cons, List.mem_cons, List.mem_singleton, List.not_mem_nil,
      not_or, not_false_eq_true, List.nodup_nil, and_true]
    exact ⟨⟨h12, h13, h14⟩, ⟨h23, h24⟩, h34⟩

/-- The engine `New([A, B], A)` returns, after the registration of `evGo`. -/
def engineGo : Context :=
  { states := ["A", "B"], initialState := "A", currentState := "A", events := [evGo],
    beforeAll := none, afterAll := none }

/-- C11: for an engine with registered events `es` and an event `e` that passes the four
registration checks, `RegisterEvent(e)` returns no error and the collection afterwards is
`es` followed by `e` (one event longer, the earlier events untouched and in their order);
the states, the current state and the rest of the engine are unchanged. -/
theorem registerEvent_appends (c : Context) (e : Event)
    (h1 : e.to_ ∈ c.states) (h2 : ∀ s ∈ e.from_, s ∈ c.states) (h3 : e.to_ ∉ e.from_)
    (h4 : ∀ x ∈ c.events, x.name ≠ e.name) :
    (RegisterEvent c e).2 = none
      ∧ (RegisterEvent c e).1.events = c.events ++ [e]
      ∧ (RegisterEvent c e).1.events.length = c.events.length + 1
      ∧ (RegisterEvent c e).1.events.take c.events.length = c.events
      ∧ (RegisterEvent c e).1.events.getLast? = some e
      ∧ (RegisterEvent c e).1.states = c.states
      ∧ CurrentState (RegisterEvent c e).1 = CurrentState c
      ∧ (RegisterEvent c e).1 = { c with events := c.events ++ [e] } := by
  rcases registerEvent_cases c e with ⟨h, _⟩ | ⟨err, _, hbad⟩
  · rw [h]
    simp [CurrentState]
  · exfalso
    rcases hbad with h5 | ⟨s, hs, h5⟩ | h5 | h5
    · exact h5 h1
    · exact h5 (h2 s hs)
    · exact h3 h5
    · rcases List.mem_map.mp h5 with ⟨x, hx, hn⟩
      exact h4 x hx hn

theorem registerEvent_appends_witness :
    evBack.to_ ∈ engineGo.states ∧ (∀ s ∈ evBack.from_, s ∈ engineGo.states)
      ∧ evBack.to_ ∉ evBack.from_ ∧ (∀ x ∈ engineGo.events, x.name ≠ evBack.name)
      ∧ (RegisterEvent engineGo evBack).2 = none
      ∧ (RegisterEvent engineGo evBack).1.events = [evGo, evBack] :=
  have h := registerEvent_appends engineGo evBack (by decide) (by decide) (by decide)
    (by decide)
  ⟨by decide, by decide, by decide, by decide, h.1, h.2.1⟩

/-! ## Construction and direct state override -/

/-- C13: when `initialState` is not an element of `states`, `New` fails with the error
`initial state must be one of the states` and gives no engine; when it is an element, `New`
succeeds and the engine has `CurrentState() = initialState`, the given states, no registered
event and no `beforeAll`/`afterAll` hook. -/
theorem new_result (states : List String) (initialState : String) :
    (initialState ∉ states →
        New states initialState = Except.error "initial state must be one of the states")
      ∧ (initialState ∈ states →
        ∃ c, New states initialState = Except.ok c ∧ CurrentState c = initialState
          ∧ c.states = states ∧ c.initialState = initialState ∧ c.events = []
          ∧ c.beforeAll = none ∧ c.afterAll = none) := by
  rcases new_cases states initialState with ⟨hm, h⟩ | ⟨hm, h⟩
  · exact ⟨fun hn => absurd hm hn, fun _ => ⟨_, h, rfl, rfl, rfl, rfl, rfl, rfl⟩⟩
  · exact ⟨fun _ => h, fun hn => absurd hn hm⟩

/-- The callbacks a call of a method makes, in call order: `Fire` is the only method whose
body calls a function value. -/
def callsOf (env : Callbacks) (c : Context) : Op → List Invocation
  | Op.fire event => (Fire env c event).trace
  | _ => []

/-- C14: `SetCurrentState(x)` returns no error exactly when `x` is an element of `states`;
on success the current state afterwards is `x` and nothing else of the engine changes; on
failure the engine is unchanged; in both cases the registered events are as before and no
hook and no validator is called. -/
theorem setCurrentState_iff (env : Callbacks) (c : Context) (x : String) :
    ((SetCurrentState c x).2 = none ↔ x ∈ c.states)
      ∧ ((SetCurrentState c x).2 = none →
          CurrentState (SetCurrentState c x).1 = x
            ∧ (SetCurrentState c x).1 = { c with currentState := x })
      ∧ ((SetCurrentState c x).2 ≠ none → (SetCurrentState c x).1 = c)
      ∧ (SetCurrentState c x).1.events = c.events
      ∧ callsOf env c (Op.setCurrentState x) = [] := by
  rcases setCurrentState_cases c x with ⟨hm, h⟩ | ⟨hm, h⟩
  · rw [h]
    exact ⟨⟨fun _ => hm, fun _ => rfl⟩, fun _ => ⟨rfl, rfl⟩, fun hn => absurd rfl hn, rfl, rfl⟩
  · rw [h]
    refine ⟨⟨fun hn => ?_, fun hx => absurd hx hm⟩, fun hn => ?_, fun _ => rfl, rfl, rfl⟩
    · simp at hn
    · simp at hn


/-! ## Invariants of the engines built by `New` -/

/-- A call of `Fire` that returns no error, with callbacks that make no call on the engine,
found an event whose sources hold the current state, and moved the engine to the target of
that event. -/
theorem fire_ok_elim {env : Callbacks} (henv : Inert env) {c : Context} {name : String}
    (hok : (Fire env c name).err = none) :
    ∃ e, lookupEvent c.events name = some e ∧ c.currentState ∈ e.from_
      ∧ (Fire env c name).ctx = { c with currentState := e.to_ } := by
  cases hl : lookupEvent c.events name with
  | none =>
    unfold Fire at hok
    simp [hl] at hok
  | some e =>
    have hname : e.name = name := (lookupEvent_some hl).2
    have hle : lookupEvent c.events e.name = some e := by rw [hname, hl]
    by_cases hs : c.currentState ∈ e.from_
    · refine ⟨e, rfl, hs, ?_⟩
      by_cases hv : ∀ v, e.validate = some v → env.verdict v c.currentState e.to_ c = none
      · have hf := fire_of_accept henv c e hle hs hv
        rw [hname] at hf
        rw [hf]
      · exfalso
        apply hv
        intro v hval
        cases hr : env.verdict v c.currentState e.to_ c with
        | none => rfl
        | some err =>
          have hf := fire_of_reject henv c e v err hle hs hval hr
          rw [hname] at hf
          rw [hf] at hok
          cases hok
    · have hf := fire_of_not_from env c e hle hs
      rw [hname] at hf
      rw [hf] at hok
      cases hok

/-- The lookup of the name of an event appended to a collection that does not hold the
name finds the appended event. -/
theorem lookupEvent_append_new (es : List Event) (e : Event)
    (hn : e.name ∉ es.map Event.name) : lookupEvent (es ++ [e]) e.name = some e := by
  induction es with
  | nil => simp [lookupEvent]
  | cons x rest ih =>
    rw [List.map_cons, List.mem_cons, not_or] at hn
    have hx : (x.name == e.name) = false := by
      simpa using fun h : x.name = e.name => hn.1 h.symm
    unfold lookupEvent at ih ⊢
    rw [List.cons_append, List.find?_cons, hx]
    exact ih hn.2

/-- C15: in an engine built by a successful `New(states, initialState)` and any finite
sequence of calls, every registered event `e` has `e.to` in `states`, every element of
`e.from` in `states`, and `e.to` not among `e.from`. -/
theorem registered_events_valid (env : Callbacks) (states : List String)
    (initialState : String) (c0 : Context) (ops : List Op)
    (hnew : New states initialState = Except.ok c0) :
    ∀ e ∈ (run env c0 ops).events,
      e.to_ ∈ states ∧ (∀ s ∈ e.from_, s ∈ states) ∧ e.to_ ∉ e.from_ := by
  have h1 := run_over env ops (new_over hnew)
  intro e he
  refine ⟨?_, ?_, h1.2.to_not_from e he⟩
  · rw [← h1.1]
    exact h1.2.to_mem e he
  · intro s hs
    rw [← h1.1]
    exact h1.2.from_mem e he s hs

theorem registered_events_valid_witness :
    New ["A", "B"] "A" = Except.ok engineAB
      ∧ ∀ e ∈ (run envTouch engineAB [Op.registerEvents [evGoReset, evBack], Op.fire "go",
          Op.registerEvent evGo, Op.setCurrentState "A"]).events,
        e.to_ ∈ ["A", "B"] ∧ (∀ s ∈ e.from_, s ∈ ["A", "B"]) ∧ e.to_ ∉ e.from_ :=
  ⟨rfl, registered_events_valid envTouch ["A", "B"] "A" engineAB _ rfl⟩

/-- C16: in an engine built by a successful `New` and any finite sequence of calls, the
names of the registered events are pairwise distinct. -/
theorem registered_names_distinct (env : Callbacks) (states : List String)
    (initialState : String) (c0 : Context) (ops : List Op)
    (hnew : New states initialState = Except.ok c0) :
    (run env c0 ops).events.Pairwise (fun a b => a.name ≠ b.name)
      ∧ ((run env c0 ops).events.map Event.name).Nodup := by
  have h1 := (run_over env ops (new_over hnew)).2.names_nodup
  exact ⟨List.pairwise_map.mp h1, h1⟩

theorem registered_names_distinct_witness :
    New ["A", "B"] "A" = Except.ok engineAB
      ∧ (run envTouch engineAB [Op.registerEvent evGo, Op.registerEvent evGo,
          Op.registerEvents [evBack]]).events.Pairwise (fun a b => a.name ≠ b.name)
      ∧ ((run envTouch engineAB [Op.registerEvent evGo, Op.registerEvent evGo,
          Op.registerEvents [evBack]]).events.map Event.name).Nodup :=
  ⟨rfl, registered_names_distinct envTouch ["A", "B"] "A" engineAB _ rfl⟩

/-- C19 fails on the code: on `New([A, B], A)` with the event `go` from `A` to `B`
registered, whose `after` is `func() { sm.SetCurrentState("A") }`, `Fire("go")` from the
current state `A` returns no error and the current state afterwards is `A` again. -/
theorem fire_ok_back_to_source :
    New ["A", "B"] "A" = Except.ok engineAB
      ∧ CurrentState (run envTouch engineAB [Op.registerEvent evGoReset]) = "A"
      ∧ (Fire envTouch (run envTouch engineAB [Op.registerEvent evGoReset]) "go").err = none
      ∧ CurrentState (Fire envTouch (run envTouch engineAB [Op.registerEvent evGoReset]) "go").ctx
          = CurrentState (run envTouch engineAB [Op.registerEvent evGoReset]) :=
  ⟨rfl, rfl, rfl, rfl⟩

/-- C19 as amended: when the callbacks make no call on the engine, in an engine built by a
successful `New` and any finite sequence of calls, with current state `s`, a call
`Fire(name)` that returns no error leaves a current state different from `s`. -/
theorem fire_no_self_loop (env : Callbacks) (henv : Inert env) (states : List String)
    (initialState : String) (c0 : Context) (ops : List Op) (name : String)
    (hnew : New states initialState = Except.ok c0)
    (hok : (Fire env (run env c0 ops) name).err = none) :
    CurrentState (Fire env (run env c0 ops) name).ctx ≠ CurrentState (run env c0 ops) := by
  have hw := (run_over env ops (new_over hnew)).2
  rcases fire_ok_elim henv hok with ⟨e, hl, hs, hctx⟩
  rw [hctx]
  intro heq
  have heq2 : e.to_ = (run env c0 ops).currentState := heq
  exact hw.to_not_from e (lookupEvent_some hl).1 (heq2 ▸ hs)

theorem fire_no_self_loop_witness :
    Inert envQuiet
      ∧ New ["A", "B"] "A" = Except.ok engineAB
      ∧ (Fire envQuiet (run envQuiet engineAB [Op.registerEvent evGoReset]) "go").err = none
      ∧ CurrentState (Fire envQuiet (run envQuiet engineAB [Op.registerEvent evGoReset]) "go").ctx
          ≠ CurrentState (run envQuiet engineAB [Op.registerEvent evGoReset]) :=
  ⟨envQuiet_inert, rfl, rfl,
    fire_no_self_loop envQuiet envQuiet_inert ["A", "B"] "A" engineAB
      [Op.registerEvent evGoReset] "go" rfl rfl⟩

/-! ## Registration followed by firing -/

/-- A registration that returns no error appends the event, whose name was not in use. -/
theorem registerEvent_ok_elim {c : Context} {e : Event} (hreg : (RegisterEvent c e).2 = none) :
    RegisterEvent c e = ({ c with events := c.events ++ [e] }, none)
      ∧ e.name ∉ c.events.map Event.name := by
  rcases registerEvent_cases c e with ⟨h, _, _, _, h4⟩ | ⟨err, h, _⟩
  · exact ⟨h, h4⟩
  · rw [h] at hreg
    cases hreg


/-- C17 fails on the code: on `New([A, B], A)`, `RegisterEvent` of the event `go` from `A` to
`B`, which has no validator and whose `after` is `func() { sm.SetCurrentState("A") }`,
returns no error and the current state `A` is in `from`; the following `Fire("go")` returns
no error, and the current state afterwards is `A`, not `B`. -/
theorem register_then_fire_state_reset :
    New ["A", "B"] "A" = Except.ok engineAB
      ∧ (RegisterEvent engineAB evGoReset).2 = none
      ∧ CurrentState engineAB ∈ evGoReset.from_
      ∧ evGoReset.validate = none
      ∧ (Fire envTouch (RegisterEvent engineAB evGoReset).1 evGoReset.name).err = none
      ∧ CurrentState (Fire envTouch (RegisterEvent engineAB evGoReset).1 evGoReset.name).ctx
          = "A"
      ∧ CurrentState (Fire envTouch (RegisterEvent engineAB evGoReset).1 evGoReset.name).ctx
          ≠ evGoReset.to_ :=
  ⟨rfl, rfl, by decide, rfl, rfl, rfl, by decide⟩

/-- C17 as amended: when the callbacks make no call on the engine, for every engine,
whatever events it holds, and every event `e` whose validator is unset or accepts, when
`RegisterEvent(e)` returns no error and the current state is in `e.from`, the lookup of
`e.name` in the engine after the registration finds `e` itself, the following `Fire(e.name)`
returns no error and the current state afterwards is `e.to`. -/
theorem register_then_fire (env : Callbacks) (henv : Inert env) (c : Context) (e : Event)
    (hreg : (RegisterEvent c e).2 = none) (hs : CurrentState c ∈ e.from_)
    (hv : ∀ v, e.validate = some v →
      env.verdict v (CurrentState c) e.to_ (RegisterEvent c e).1 = none) :
    lookupEvent (RegisterEvent c e).1.events e.name = some e
      ∧ IsFirstNamed (RegisterEvent c e).1.events e.name e
      ∧ (Fire env (RegisterEvent c e).1 e.name).err = none
      ∧ CurrentState (Fire env (RegisterEvent c e).1 e.name).ctx = e.to_ := by
  rcases registerEvent_ok_elim hreg with ⟨h, hn⟩
  have hl := lookupEvent_append_new c.events e hn
  rw [h] at hv ⊢
  refine ⟨hl, (lookupEvent_eq_some_iff _ _ _).mp hl, ?_, ?_⟩
  · rw [fire_of_accept henv { c with events := c.events ++ [e] } e hl hs hv]
  · rw [fire_of_accept henv { c with events := c.events ++ [e] } e hl hs hv]
    rfl

theorem register_then_fire_witness :
    Inert envQuiet
      ∧ (RegisterEvent engineAB evHooked).2 = none ∧ CurrentState engineAB ∈ evHooked.from_
      ∧ (∀ v, evHooked.validate = some v →
          envQuiet.verdict v (CurrentState engineAB) evHooked.to_
            (RegisterEvent engineAB evHooked).1 = none)
      ∧ lookupEvent (RegisterEvent engineAB evHooked).1.events "test1" = some evHooked
      ∧ IsFirstNamed (RegisterEvent engineAB evHooked).1.events "test1" evHooked
      ∧ (Fire envQuiet (RegisterEvent engineAB evHooked).1 "test1").err = none
      ∧ CurrentState (Fire envQuiet (RegisterEvent engineAB evHooked).1 "test1").ctx = "B" :=
  ⟨envQuiet_inert, rfl, by decide, (fun _ hv => by cases hv; rfl),
    register_then_fire envQuiet envQuiet_inert engineAB evHooked rfl (by decide)
      (fun _ hv => by cases hv; rfl)⟩

/-- An event from no state at all, to `B`. -/
def evNoSource : Event :=
  { name := "stuck", to_ := "B", from_ := [], before := none, after := none,
    validate := none }

/-- C18 fails on the code: the event `evNoSource` has an empty `from` list, and
`RegisterEvent` on `New([A, B], A)` returns no error and adds it, so that the engine after
this one call holds an event with no source state. -/
theorem registerEvent_accepts_empty_from :
    New ["A", "B"] "A" = Except.ok engineAB
      ∧ evNoSource.from_ = []
      ∧ (RegisterEvent engineAB evNoSource).2 = none
      ∧ (RegisterEvent engineAB evNoSource).1.events = [evNoSource]
      ∧ ∃ e ∈ (run envQuiet engineAB [Op.registerEvent evNoSource]).events, e.from_ = [] :=
  ⟨rfl, rfl, rfl, rfl, evNoSource, List.Mem.head _, rfl⟩

/-- C18 as amended: for an event whose `from` list is empty, `RegisterEvent` returns no error
exactly when `event.to` is in `states` and no registered event has the same name; it then
appends the event to the collection, and a `Fire` of the event right after fails with the
illegal-transition error. -/
theorem registerEvent_empty_from (env : Callbacks) (c : Context) (event : Event)
    (hfrom : event.from_ = []) :
    ((RegisterEvent c event).2 = none ↔
        event.to_ ∈ c.states ∧ ∀ x ∈ c.events, x.name ≠ event.name)
      ∧ ((RegisterEvent c event).2 = none →
          (RegisterEvent c event).1.events = c.events ++ [event]
            ∧ (Fire env (RegisterEvent c event).1 event.name).err
                = some ("cannot fire the " ++ event.name ++ " event from the "
                    ++ CurrentState c ++ " state")
            ∧ CurrentState (Fire env (RegisterEvent c event).1 event.name).ctx
                = CurrentState c) := by
  constructor
  · constructor
    · intro hreg
      rcases registerEvent_cases c event with ⟨_, h1, _, _, h4⟩ | ⟨err, h, _⟩
      · exact ⟨h1, fun x hx hn => h4 (List.mem_map.mpr ⟨x, hx, hn⟩)⟩
      · rw [h] at hreg
        cases hreg
    · rintro ⟨h1, h4⟩
      rcases registerEvent_cases c event with ⟨h, _⟩ | ⟨err, _, hbad⟩
      · rw [h]
      · exfalso
        rw [hfrom] at hbad
        rcases hbad with h5 | ⟨s, hs, _⟩ | h5 | h5
        · exact h5 h1
        · cases hs
        · cases h5
        · rcases List.mem_map.mp h5 with ⟨x, hx, hn⟩
          exact h4 x hx hn
  · intro hreg
    rcases registerEvent_ok_elim hreg with ⟨h, hn⟩
    have hl := lookupEvent_append_new c.events event hn
    have hs : ({ c with events := c.events ++ [event] } : Context).currentState ∉ event.from_ := by
      rw [hfrom]
      exact List.not_mem_nil _
    rw [h, fire_of_not_from env { c with events := c.events ++ [event] } event hl hs]
    exact ⟨rfl, rfl, rfl⟩

theorem registerEvent_empty_from_witness :
    evNoSource.from_ = []
      ∧ ((RegisterEvent engineGo evNoSource).2 = none ↔
          evNoSource.to_ ∈ engineGo.states ∧ ∀ x ∈ engineGo.events, x.name ≠ evNoSource.name)
      ∧ ((RegisterEvent engineGo evNoSource).2 = none →
          (RegisterEvent engineGo evNoSource).1.events = engineGo.events ++ [evNoSource]
            ∧ (Fire envTouch (RegisterEvent engineGo evNoSource).1 evNoSource.name).err
                = some ("cannot fire the " ++ evNoSource.name ++ " event from the "
                    ++ CurrentState engineGo ++ " state")
            ∧ CurrentState (Fire envTouch (RegisterEvent engineGo evNoSource).1 evNoSource.name).ctx
                = CurrentState engineGo) :=
  ⟨rfl, registerEvent_empty_from envTouch engineGo evNoSource rfl⟩

/-! ## Batch registration -/

/-- The single-event registration rule: the event violates none of the four checks of
`RegisterEvent` on the engine. -/
def Passes (c : Context) (e : Event) : Prop :=
  e.to_ ∈ c.states ∧ (∀ s ∈ e.from_, s ∈ c.states) ∧ e.to_ ∉ e.from_
    ∧ ∀ x ∈ c.events, x.name ≠ e.name

instance instDecidablePasses (c : Context) (e : Event) : Decidable (Passes c e) := by
  unfold Passes
  infer_instance

/-- Every event of the batch passes the single-event rule against the collection extended by
the batch events before it. -/
def BatchPasses : Context → List Event → Prop
  | _, [] => True
  | c, e :: rest => Passes c e ∧ BatchPasses { c with events := c.events ++ [e] } rest

/-- Whether a batch passes can be computed. -/
def decideBatchPasses : (c : Context) → (b : List Event) → Decidable (BatchPasses c b)
  | _, [] => isTrue trivial
  | c, e :: rest =>
    @instDecidableAnd (Passes c e) (BatchPasses { c with events := c.events ++ [e] } rest)
      (instDecidablePasses c e) (decideBatchPasses { c with events := c.events ++ [e] } rest)

instance instDecidableBatchPasses (c : Context) (b : List Event) :
    Decidable (BatchPasses c b) :=
  decideBatchPasses c b

/-- The attempts of `RegisterEvents` on a batch: each event of the batch with what
`RegisterEvent` returns for it, on the engine the attempts before it have left. -/
def attempts (c : Context) : List Event → List (Event × Option String)
  | [] => []
  | e :: rest => (e, (RegisterEvent c e).2) :: attempts (RegisterEvent c e).1 rest

/-- The events of a batch whose attempt returns no error, in batch order. -/
def accepted (c : Context) (b : List Event) : List Event :=
  ((attempts c b).filter (fun p => p.2.isNone)).map Prod.fst

/-- The engine after the loop of `RegisterEvents` is the engine after the calls of
`RegisterEvent` on the events of the batch, one by one. -/
theorem registerLoop_fst (env : Callbacks) (b : List Event) (c : Context)
    (err : Option String) :
    (registerLoop c err b).1 = run env c (b.map Op.registerEvent) := by
  induction b generalizing c err with
  | nil => rfl
  | cons e rest ih =>
    rw [registerLoop, ih]
    rfl

theorem registerEvent_of_passes {c : Context} {e : Event} (h : Passes c e) :
    RegisterEvent c e = ({ c with events := c.events ++ [e] }, none) := by
  rcases registerEvent_cases c e with ⟨h0, _⟩ | ⟨err, _, hbad⟩
  · exact h0
  · exfalso
    rcases hbad with h5 | ⟨s, hs, h5⟩ | h5 | h5
    · exact h5 h.1
    · exact h5 (h.2.1 s hs)
    · exact h.2.2.1 h5
    · rcases List.mem_map.mp h5 with ⟨x, hx, hn⟩
      exact h.2.2.2 x hx hn

theorem registerLoop_of_batchPasses (b : List Event) (c : Context) (h : BatchPasses c b) :
    registerLoop c none b = ({ c with events := c.events ++ b }, none) := by
  induction b generalizing c with
  | nil => simp [registerLoop]
  | cons e rest ih =>
    rw [registerLoop, registerEvent_of_passes h.1]
    rw [ih _ h.2]
    simp

theorem batchPasses_names (b : List Event) (c : Context) (h : BatchPasses c b) :
    (b.map Event.name).Nodup ∧ ∀ e ∈ b, ∀ x ∈ c.events, x.name ≠ e.name := by
  induction b generalizing c with
  | nil => simp
  | cons e rest ih =>
    have h2 := ih _ h.2
    refine ⟨?_, ?_⟩
    · rw [List.map_cons, List.nodup_cons]
      refine ⟨?_, h2.1⟩
      intro hm
      rcases List.mem_map.mp hm with ⟨y, hy, hn⟩
      exact h2.2 y hy e (by simp) hn.symm
    · intro y hy x hx
      rcases List.mem_cons.mp hy with rfl | hy
      · exact h.1.2.2.2 x hx
      · exact h2.2 y hy x (by simp [hx])

/-- C12: for an engine with registered events `es` and a batch `b` in which every event
passes the single-event rule against `es` extended by the batch events before it,
`RegisterEvents(b)` returns no error and the collection afterwards is `es` followed by `b` in
batch order; the engine is the one obtained by calling `RegisterEvent` on the events of `b`
one by one; the names of the batch are pairwise distinct and none is used in `es`. -/
theorem registerEvents_all_pass (env : Callbacks) (c : Context) (b : List Event)
    (h : BatchPasses c b) :
    (RegisterEvents c b).2 = none
      ∧ (RegisterEvents c b).1.events = c.events ++ b
      ∧ (RegisterEvents c b).1 = { c with events := c.events ++ b }
      ∧ (RegisterEvents c b).1 = run env c (b.map Op.registerEvent)
      ∧ (b.map Event.name).Nodup
      ∧ (∀ e ∈ b, ∀ x ∈ c.events, x.name ≠ e.name) := by
  have hl := registerLoop_of_batchPasses b c h
  have hf := registerLoop_fst env b c none
  rw [hl] at hf
  have hr : RegisterEvents c b = ({ c with events := c.events ++ b }, none) := by
    unfold RegisterEvents
    rw [hl]
  rw [hr]
  exact ⟨rfl, rfl, rfl, hf, batchPasses_names b c h⟩

theorem registerEvents_all_pass_witness :
    BatchPasses engineAB [evGo, evBack]
      ∧ (RegisterEvents engineAB [evGo, evBack]).2 = none
      ∧ (RegisterEvents engineAB [evGo, evBack]).1.events = [evGo, evBack]
      ∧ (RegisterEvents engineAB [evGo, evBack]).1
          = run envTouch engineAB [Op.registerEvent evGo, Op.registerEvent evBack] :=
  have hb : BatchPasses engineAB [evGo, evBack] :=
    ⟨by decide, by decide, trivial⟩
  have h := registerEvents_all_pass envTouch engineAB [evGo, evBack] hb
  ⟨hb, h.1, h.2.1, h.2.2.2.1⟩

theorem attempts_map_fst (b : List Event) (c : Context) :
    (attempts c b).map Prod.fst = b := by
  induction b generalizing c with
  | nil => rfl
  | cons e rest ih => simp [attempts, ih]

/-- The variable `err` after the loop holds what the last attempt returned, or its first
value when the batch is empty. -/
theorem registerLoop_snd (b : List Event) (c : Context) (err : Option String) :
    (registerLoop c err b).2 = ((attempts c b).getLast?.map Prod.snd).getD err := by
  induction b generalizing c err with
  | nil => rfl
  | cons e rest ih =>
    rw [registerLoop, ih, attempts, List.getLast?_cons]
    cases hl : (attempts (RegisterEvent c e).1 rest).getLast? <;> simp

/-- The engine after registering a batch one by one: the accepted events are appended. -/
theorem run_registerEvent (env : Callbacks) (b : List Event) (c : Context) :
    run env c (b.map Op.registerEvent) = { c with events := c.events ++ accepted c b } := by
  induction b generalizing c with
  | nil => simp [run, accepted, attempts]
  | cons e rest ih =>
    have hstep : run env c ((e :: rest).map Op.registerEvent)
        = run env (RegisterEvent c e).1 (rest.map Op.registerEvent) := rfl
    rw [hstep, ih]
    rcases registerEvent_cases c e with ⟨h, _⟩ | ⟨err, h, _⟩
    · simp [accepted, attempts, h]
    · simp [accepted, attempts, h]

theorem attempts_append (env : Callbacks) (pre post : List Event) (c : Context) :
    attempts c (pre ++ post)
      = attempts c pre ++ attempts (run env c (pre.map Op.registerEvent)) post := by
  induction pre generalizing c with
  | nil => rfl
  | cons e rest ih =>
    rw [List.cons_append, attempts, attempts, ih]
    rfl

theorem attempts_length (b : List Event) (c : Context) : (attempts c b).length = b.length := by
  have h := congrArg List.length (attempts_map_fst b c)
  simpa using h

/-- The attempt on an event of the batch is `RegisterEvent` on the engine whose collection
is the one before the batch followed by the events accepted so far. -/
theorem attempts_at (pre post : List Event) (e : Event) (c : Context) :
    attempts c (pre ++ e :: post)
      = attempts c pre
        ++ (e, (RegisterEvent { c with events := c.events ++ accepted c pre } e).2)
          :: attempts (RegisterEvent { c with events := c.events ++ accepted c pre } e).1 post := by
  rw [attempts_append envQuiet, run_registerEvent, attempts]

theorem registerEvents_snd (c : Context) (b : List Event) :
    (RegisterEvents c b).2 = (attempts c b).getLast?.bind Prod.snd := by
  have h := registerLoop_snd b c none
  have h2 : (RegisterEvents c b).2 = (registerLoop c none b).2 := by
    rcases registerEvents_cases c b with ⟨err, he, hr⟩ | ⟨he, hr⟩ <;> rw [hr, he]
  rw [h2, h]
  cases (attempts c b).getLast? <;> rfl

/-- C20: `RegisterEvents` on an engine with collection `es` and a batch `b` attempts
`RegisterEvent` on each event of `b` in order, each attempt on the collection `es` followed
by the events accepted so far. It returns an error exactly when `b` is not empty and the
attempt on the last event of `b` fails; the error is the one of that last attempt and the
collection is then empty. Otherwise it returns no error and the collection is `es` followed
by the events of `b` whose attempt succeeded, in batch order. States and current state are
unchanged. -/
theorem registerEvents_exact (c : Context) (b : List Event) :
    (attempts c b).map Prod.fst = b
      ∧ (∀ pre e post, b = pre ++ e :: post →
          (attempts c b)[pre.length]?
            = some (e, (RegisterEvent { c with events := c.events ++ accepted c pre } e).2))
      ∧ (RegisterEvents c b).2 = (attempts c b).getLast?.bind Prod.snd
      ∧ ((RegisterEvents c b).2 ≠ none ↔
          ∃ pre e err, b = pre ++ [e]
            ∧ (RegisterEvent { c with events := c.events ++ accepted c pre } e).2 = some err
            ∧ (RegisterEvents c b).2 = some err)
      ∧ ((RegisterEvents c b).2 ≠ none → (RegisterEvents c b).1.events = [])
      ∧ ((RegisterEvents c b).2 = none →
          (RegisterEvents c b).1.events = c.events ++ accepted c b)
      ∧ (RegisterEvents c b).1.states = c.states
      ∧ CurrentState (RegisterEvents c b).1 = CurrentState c := by
  have hlast : ∀ pre e, b = pre ++ [e] →
      (RegisterEvents c b).2
        = (RegisterEvent { c with events := c.events ++ accepted c pre } e).2 := by
    intro pre e hb
    rw [registerEvents_snd, hb, attempts_at, attempts]
    simp
  refine ⟨attempts_map_fst b c, ?_, registerEvents_snd c b, ?_, ?_, ?_,
    (registerEvents_states c b).1, (registerEvents_states c b).2⟩
  · intro pre e post hb
    rw [hb, attempts_at]
    rw [List.getElem?_append_right (by rw [attempts_length])]
    simp [attempts_length]
  · constructor
    · intro hne
      rcases List.eq_nil_or_concat b with hb | ⟨pre, e, hb⟩
      · exfalso
        apply hne
        rw [registerEvents_snd, hb]
        rfl
      · rw [List.concat_eq_append] at hb
        have h := hlast pre e hb
        cases hr : (RegisterEvents c b).2 with
        | none => exact absurd hr hne
        | some err => exact ⟨pre, e, err, hb, by rw [← h, hr], rfl⟩
    · rintro ⟨pre, e, err, _, _, h⟩
      rw [h]
      simp
  · intro hne
    rcases registerEvents_cases c b with ⟨err, _, hr⟩ | ⟨_, hr⟩
    · rw [hr]
    · rw [hr] at hne
      exact absurd rfl hne
  · intro hnone
    rcases registerEvents_cases c b with ⟨err, _, hr⟩ | ⟨_, hr⟩
    · rw [hr] at hnone
      cases hnone
    · rw [hr]
      show (registerLoop c none b).1.events = c.events ++ accepted c b
      rw [registerLoop_fst envQuiet, run_registerEvent]


end StateMachine
